import Mathlib

/-!
Shallow embedding of the VizKit charting engine core
(coordinate system, object pool, canvas renderer frame scheduling,
chart orchestrator, event normalization, scale management),
with theorems checking the natural-language specification against it.

Numbers in the source are JavaScript numbers used in pure arithmetic here
(additions, subtractions, min/max, linear interpolation); they are embedded
as rationals (ℚ).
-/

namespace DataViz

/-! ## Core types (src/core/types.ts) -/

/-- 2D point in screen or data space (`Point` in types.ts). -/
structure Point where
  x : ℚ
  y : ℚ
deriving DecidableEq, Repr

/-- Rectangle bounds (`Rect` in types.ts). -/
structure Rect where
  x : ℚ
  y : ℚ
  width : ℚ
  height : ℚ
deriving DecidableEq, Repr

/-- Margin specification (`Margin` in types.ts). -/
structure Margin where
  top : ℚ
  right : ℚ
  bottom : ℚ
  left : ℚ
deriving DecidableEq, Repr

/-- Render layer types (`RenderLayer` enum in types.ts): background 0,
grid 1, data 2, interaction 3, overlay 4. -/
inductive RenderLayer where
  | background
  | grid
  | data
  | interaction
  | overlay
deriving DecidableEq, Repr

/-! ## Coordinate system (core/coordinate/coordinate-system.ts) -/

/-- State of a `CoordinateSystem`: width, height, margin. -/
structure CoordinateSystem where
  width : ℚ
  height : ℚ
  margin : Margin
deriving DecidableEq, Repr

/-- `getInnerWidth()`: `Math.max(0, width - margin.left - margin.right)`. -/
def CoordinateSystem.getInnerWidth (cs : CoordinateSystem) : ℚ :=
  max 0 (cs.width - cs.margin.left - cs.margin.right)

/-- `getInnerHeight()`: `Math.max(0, height - margin.top - margin.bottom)`. -/
def CoordinateSystem.getInnerHeight (cs : CoordinateSystem) : ℚ :=
  max 0 (cs.height - cs.margin.top - cs.margin.bottom)

/-- `getPlotBounds()`: rectangle at (margin.left, margin.top) sized
innerWidth × innerHeight. -/
def CoordinateSystem.getPlotBounds (cs : CoordinateSystem) : Rect :=
  { x := cs.margin.left
    y := cs.margin.top
    width := cs.getInnerWidth
    height := cs.getInnerHeight }

/-- `dataToScreen(point)`: adds the margin offset. -/
def CoordinateSystem.dataToScreen (cs : CoordinateSystem) (p : Point) : Point :=
  { x := cs.margin.left + p.x
    y := cs.margin.top + p.y }

/-- `screenToData(point)`: subtracts the margin offset. -/
def CoordinateSystem.screenToData (cs : CoordinateSystem) (p : Point) : Point :=
  { x := p.x - cs.margin.left
    y := p.y - cs.margin.top }

/-- `isInPlotArea(point)`: inclusive containment in the plot rectangle. -/
def CoordinateSystem.isInPlotArea (cs : CoordinateSystem) (p : Point) : Bool :=
  let b := cs.getPlotBounds
  p.x ≥ b.x && p.x ≤ b.x + b.width && p.y ≥ b.y && p.y ≤ b.y + b.height

/-- `clampToPlotArea(point)`:
`x = max(bounds.x, min(bounds.x + bounds.width, p.x))` and likewise for y. -/
def CoordinateSystem.clampToPlotArea (cs : CoordinateSystem) (p : Point) : Point :=
  let b := cs.getPlotBounds
  { x := max b.x (min (b.x + b.width) p.x)
    y := max b.y (min (b.y + b.height) p.y) }

/-- `resize(width, height)`: sets width and height. -/
def CoordinateSystem.resize (cs : CoordinateSystem) (w h : ℚ) : CoordinateSystem :=
  { cs with width := w, height := h }

/-- `Partial<Margin>`: each inset optionally supplied. -/
structure PartialMargin where
  top : Option ℚ
  right : Option ℚ
  bottom : Option ℚ
  left : Option ℚ
deriving DecidableEq, Repr

/-- `setMargin(margin)`: `this.margin = { ...this.margin, ...margin }` —
spread-merge of the supplied partial insets over the existing ones. -/
def CoordinateSystem.setMargin (cs : CoordinateSystem) (pm : PartialMargin) :
    CoordinateSystem :=
  { cs with
    margin :=
      { top := pm.top.getD cs.margin.top
        right := pm.right.getD cs.margin.right
        bottom := pm.bottom.getD cs.margin.bottom
        left := pm.left.getD cs.margin.left } }

/-! ## Object pool (object pool module) -/

/-- State of an `ObjectPool<T>`: backing array (in JS array order, `push`
appends at the end and `pop` removes from the end), factory, reset, maxSize
(default 1000). -/
structure ObjectPool (T : Type) where
  pool : List T
  factory : Unit → T
  reset : T → T
  maxSize : ℕ

/-- `acquire()`: pops the last pooled object when the pool is non-empty,
otherwise constructs a fresh object via the factory. Returns the acquired
object and the pool afterwards. -/
def ObjectPool.acquire {T : Type} (p : ObjectPool T) : T × ObjectPool T :=
  match p.pool.getLast? with
  | some obj => (obj, { p with pool := p.pool.dropLast })
  | none => (p.factory (), p)

/-- `release(obj)`: when `pool.length < maxSize`, resets the object and
pushes it; otherwise the call does nothing. Returns the pool afterwards and
the object in its state after the call (reset iff it was retained). -/
def ObjectPool.release {T : Type} (p : ObjectPool T) (obj : T) :
    ObjectPool T × T :=
  if p.pool.length < p.maxSize then
    ({ p with pool := p.pool ++ [p.reset obj] }, p.reset obj)
  else
    (p, obj)

/-- `clear()`: empties the backing array. -/
def ObjectPool.clearPool {T : Type} (p : ObjectPool T) : ObjectPool T :=
  { p with pool := [] }

/-- `size()`: the number of pooled objects. -/
def ObjectPool.size {T : Type} (p : ObjectPool T) : ℕ :=
  p.pool.length

/-- One operation against an object pool. -/
inductive PoolOp (T : Type) where
  | acquireOp
  | releaseOp (obj : T)
  | clearOp

/-- Apply one operation to a pool (results of `acquire` are discarded:
only the pool state is tracked). -/
def ObjectPool.step {T : Type} (p : ObjectPool T) : PoolOp T → ObjectPool T
  | .acquireOp => (p.acquire).2
  | .releaseOp obj => (p.release obj).1
  | .clearOp => p.clearPool

/-- Apply a sequence of operations to a pool. -/
def ObjectPool.run {T : Type} (p : ObjectPool T) (ops : List (PoolOp T)) :
    ObjectPool T :=
  ops.foldl ObjectPool.step p

/-- `PointPool` factory: `() => ({ x: 0, y: 0 })`. -/
def pointFactory : Unit → Point := fun _ => { x := 0, y := 0 }

/-- `PointPool` reset: `(p) => { p.x = 0; p.y = 0; }`. -/
def pointReset : Point → Point := fun _ => { x := 0, y := 0 }

/-- The pre-configured `PointPool` (maxSize defaults to 1000), initially empty. -/
def PointPool : ObjectPool Point :=
  { pool := [], factory := pointFactory, reset := pointReset, maxSize := 1000 }

/-! ## Canvas renderer frame scheduling (core/renderer/canvas-renderer.ts)

The browser's animation-frame API is modelled as a queue of registered,
not-yet-fired callbacks, each with a unique id: `requestAnimationFrame`
registers a callback and returns its id, `cancelAnimationFrame` removes a
registration by id, and when the next frame fires every still-registered
callback runs in registration order. Callbacks are modelled opaquely by a
type `α` (the identity of the supplied closure). -/

/-- Pending animation-frame registrations (id, callback) in registration
order, plus the next fresh id. -/
structure FrameQueue (α : Type) where
  pending : List (ℕ × α)
  nextId : ℕ

/-- `requestAnimationFrame(cb)`: registers `cb` under a fresh id and
returns the id. -/
def FrameQueue.request {α : Type} (q : FrameQueue α) (cb : α) :
    ℕ × FrameQueue α :=
  (q.nextId, { pending := q.pending ++ [(q.nextId, cb)], nextId := q.nextId + 1 })

/-- `cancelAnimationFrame(id)`: removes the registration with that id. -/
def FrameQueue.cancel {α : Type} (q : FrameQueue α) (id : ℕ) : FrameQueue α :=
  { q with pending := q.pending.filter (fun e => e.1 ≠ id) }

/-- The next animation frame fires: the callbacks that execute, in order. -/
def FrameQueue.fire {α : Type} (q : FrameQueue α) : List α :=
  q.pending.map (fun e => e.2)

/-- The scheduling state of a `CanvasRenderer`: `animationFrameId`,
initially null. -/
structure CanvasRenderer where
  animationFrameId : Option ℕ

/-- `scheduleRender(callback)`: if an animation frame id is pending,
cancel it; then request a new animation frame for the callback and store
its id. -/
def CanvasRenderer.scheduleRender {α : Type} (r : CanvasRenderer)
    (q : FrameQueue α) (cb : α) : CanvasRenderer × FrameQueue α :=
  let q1 := match r.animationFrameId with
    | some id => q.cancel id
    | none => q
  let res := q1.request cb
  ({ animationFrameId := some res.1 }, res.2)

/-- `cancelRender()`: cancels the pending animation frame, if any. -/
def CanvasRenderer.cancelRender {α : Type} (r : CanvasRenderer)
    (q : FrameQueue α) : CanvasRenderer × FrameQueue α :=
  match r.animationFrameId with
  | some id => ({ animationFrameId := none }, q.cancel id)
  | none => (r, q)

/-- A renderer/frame-queue pair is coherent when the queue holds exactly
the renderer's own pending registration: none when `animationFrameId` is
null, and the single entry under that id otherwise. This is the state in
which the renderer starts (no registration) and which `scheduleRender`
re-establishes. -/
def CanvasRenderer.coherent {α : Type} (r : CanvasRenderer)
    (q : FrameQueue α) : Prop :=
  (r.animationFrameId = none ∧ q.pending = []) ∨
    (∃ i c, r.animationFrameId = some i ∧ q.pending = [(i, c)])

/-- A sequence of `scheduleRender` calls made synchronously within one
frame interval. -/
def CanvasRenderer.scheduleMany {α : Type} (s : CanvasRenderer × FrameQueue α)
    (cbs : List α) : CanvasRenderer × FrameQueue α :=
  cbs.foldl (fun st cb => CanvasRenderer.scheduleRender st.1 st.2 cb) s

/-! ## Chart orchestrator (chart.ts)

`render()` is embedded as a trace semantics: the list of drawing effects
the call performs against the renderer's layers, in order. -/

/-- A renderable component as the orchestrator sees it: optional layer
(default data), optional visible flag (skipped iff `visible === false`),
and an identity for the draw trace. -/
structure Renderable where
  id : ℕ
  layer : Option RenderLayer
  visible : Option Bool
deriving DecidableEq, Repr

/-- One drawing effect performed by `Chart.render()`. -/
inductive RenderEffect where
  | clearLayer (layer : RenderLayer)
  | fillBackground (color : String) (x y w h : ℚ)
  | draw (layer : RenderLayer) (r : Renderable)
deriving DecidableEq, Repr

/-- The fixed layer order (background, grid, data, interaction, overlay),
which is both the `Map` insertion order of the renderer's layers and the
order of the `layers` array in `render()`. -/
def layerOrder : List RenderLayer :=
  [.background, .grid, .data, .interaction, .overlay]

/-- State of a `Chart`: resolved config (width, height, background color)
and `renderables`, a `Map<RenderLayer, Renderable[]>` embedded as an
insertion-ordered association list. -/
structure Chart where
  width : ℚ
  height : ℚ
  backgroundColor : String
  renderables : List (RenderLayer × List Renderable)
deriving Repr

/-- `Map.get` on the renderables map. -/
def Chart.getBucket (c : Chart) (l : RenderLayer) : Option (List Renderable) :=
  (c.renderables.find? (fun e => e.1 == l)).map (fun e => e.2)

/-- `Map.set` on the renderables map: replaces the bucket in place when the
key exists, appends a new entry otherwise. -/
def setBucket (m : List (RenderLayer × List Renderable)) (l : RenderLayer)
    (v : List Renderable) : List (RenderLayer × List Renderable) :=
  if m.any (fun e => e.1 == l) then
    m.map (fun e => if e.1 == l then (l, v) else e)
  else
    m ++ [(l, v)]

/-- `add(renderable)`: appends to the bucket for the renderable's declared
layer (`renderable.layer ?? RenderLayer.Data`), creating the bucket if
absent. -/
def Chart.add (c : Chart) (r : Renderable) : Chart :=
  let l := r.layer.getD .data
  let bucket := (c.getBucket l).getD []
  { c with renderables := setBucket c.renderables l (bucket ++ [r]) }

/-- `render()`: clears all layers (`clearAll`: every layer of the
renderer's map, in insertion order), repaints the background layer with
the configured solid fill over the full logical size, then for each layer
in fixed order draws each renderable in its bucket (skipping the bucket
when absent) whose `visible` flag is not `false`. -/
def Chart.render (c : Chart) : List RenderEffect :=
  (layerOrder.map RenderEffect.clearLayer)
    ++ [RenderEffect.fillBackground c.backgroundColor 0 0 c.width c.height]
    ++ (layerOrder.flatMap (fun l =>
        match c.getBucket l with
        | none => []
        | some components =>
          (components.filter (fun r => r.visible ≠ some false)).map
            (RenderEffect.draw l)))

/-! ## Event manager (interactions/events/event-manager.ts) -/

/-- The nine event types the manager listens for. -/
inductive EventType where
  | click
  | mousemove
  | mouseenter
  | mouseleave
  | mousedown
  | mouseup
  | touchstart
  | touchmove
  | touchend
deriving DecidableEq, Repr

/-- A raw DOM input event: a `MouseEvent` with client coordinates, or a
`TouchEvent` with its list of touch points' client coordinates. -/
inductive RawEvent where
  | mouse (clientX clientY : ℚ)
  | touch (touches : List (ℚ × ℚ))
deriving DecidableEq, Repr

/-- A `NormalizedEvent` (without the original-event back-reference). -/
structure NormalizedEvent where
  type : EventType
  point : Point
deriving DecidableEq, Repr

/-- `getEventPoint(event)`: subtracts the canvas bounding rectangle's
origin from the client coordinates; for a touch event uses the first touch
point when `touches.length > 0`, and returns null otherwise. `rect` is the
canvas's bounding client rectangle. -/
def getEventPoint (rect : Rect) : RawEvent → Option Point
  | .mouse cx cy => some { x := cx - rect.x, y := cy - rect.y }
  | .touch touches =>
    match touches.head? with
    | some t => some { x := t.1 - rect.x, y := t.2 - rect.y }
    | none => none

/-- `handleEvent(type, event)`: computes the event point; if null, returns
without dispatching; otherwise dispatches a `NormalizedEvent` to every
handler registered for the type, in order. Handlers are modelled by ids
(`H`); the result is the list of (handler, event) dispatches performed. -/
def handleEvent {H : Type} (rect : Rect) (handlers : List H)
    (type : EventType) (event : RawEvent) : List (H × NormalizedEvent) :=
  match getEventPoint rect event with
  | none => []
  | some p => handlers.map (fun h => (h, { type := type, point := p }))

/-! ## Scale manager (primitives/scales/scale-manager.ts) -/

/-- The eight scale variants (`ScaleType` in types.ts). -/
inductive ScaleType where
  | linear
  | log
  | pow
  | sqrt
  | time
  | band
  | point
  | ordinal
deriving DecidableEq, Repr

/-- The categorical branch test in `computeDomain`:
`scaleType === 'band' || scaleType === 'point' || scaleType === 'ordinal'`. -/
def ScaleType.isCategorical : ScaleType → Bool
  | .band => true
  | .point => true
  | .ordinal => true
  | _ => false

/-- `EmptyDomainError`: raised by domain computation over zero data points
(`throw new Error('Cannot compute domain: no valid data')`). -/
inductive DomainComputationError where
  | emptyDomain
deriving DecidableEq, Repr

/-- Modelled from the spec: `Array.from(new Set(values))` — the JS `Set`
retains the distinct values in insertion order; its implementation is the
runtime's, not part of this repository. A value is kept at its first
occurrence and later duplicates are dropped. -/
def dedupFirstSeen {V : Type} [DecidableEq V] : List V → List V
  | [] => []
  | v :: vs => v :: (dedupFirstSeen vs).filter (fun w => w ≠ v)

/-- Modelled from the spec: d3-array's `extent(values)` — the d3-array
implementation is not part of this repository. Over well-defined
comparable values it returns the (min, max) pair, or (undefined,
undefined) for an empty input, here `none`. -/
def extent (values : List ℚ) : Option (ℚ × ℚ) :=
  match values with
  | [] => none
  | v :: vs => some (vs.foldl min v, vs.foldl max v)

/-- The accessor results of `computeDomain(data, accessor, scaleType)`:
`data.map((d, i) => accessor(d, i))`, with accessor values embedded as
rationals. -/
def accessorValues {α : Type} (data : List α) (accessor : α → ℕ → ℚ) :
    List ℚ :=
  data.enum.map (fun p => accessor p.2 p.1)

/-- `computeDomain(data, accessor, scaleType)`: categorical variants
return the distinct accessor values in first-seen order; continuous
variants return the two-element extent, or fail with the empty-domain
error when the extent is undefined (empty data). -/
def computeDomain {α : Type} (data : List α) (accessor : α → ℕ → ℚ)
    (scaleType : ScaleType) :
    Except DomainComputationError (List ℚ) :=
  if scaleType.isCategorical then
    .ok (dedupFirstSeen (accessorValues data accessor))
  else
    match extent (accessorValues data accessor) with
    | none => .error .emptyDomain
    | some e => .ok [e.1, e.2]

/-- Modelled from the spec: the continuous linear scale returned by
`createScale` for the 'linear' variant is d3-scale's `scaleLinear`, whose
implementation is not part of this repository. Per the spec (§4.1: affine
interpolation of domain onto range; zero-width domains degenerate to the
midpoint of the range for all inputs, with no division by zero), the
normalized position is `(x - a) / (b - a)` when the domain has non-zero
width and the constant 1/2 otherwise. -/
structure LinearScale where
  domainMin : ℚ
  domainMax : ℚ
  rangeMin : ℚ
  rangeMax : ℚ
deriving DecidableEq, Repr

/-- `createScale({type:'linear', domain, range})`: a linear scale with the
given domain and range pairs. -/
def createLinearScale (domain : ℚ × ℚ) (range : ℚ × ℚ) : LinearScale :=
  { domainMin := domain.1, domainMax := domain.2
    rangeMin := range.1, rangeMax := range.2 }

/-- The normalized position of `x` in the domain `[a, b]`: guarded so a
zero-width domain yields the constant 1/2 rather than dividing by zero. -/
def normalizePos (a b x : ℚ) : ℚ :=
  if b - a ≠ 0 then (x - a) / (b - a) else 1 / 2

/-- Applying a continuous linear scale: interpolate the normalized domain
position onto the range. -/
def LinearScale.apply (s : LinearScale) (x : ℚ) : ℚ :=
  s.rangeMin + normalizePos s.domainMin s.domainMax x * (s.rangeMax - s.rangeMin)

/-- The `PointPool` with a single canonical entry (a concrete pool state
used to exercise the pool theorems). -/
def pointPoolOne : ObjectPool Point :=
  { PointPool with pool := [{ x := 0, y := 0 }] }

/-- A concrete capacity-2 pool of naturals holding two entries. -/
def natPool2 : ObjectPool ℕ :=
  { pool := [1, 2], factory := fun _ => 0, reset := fun _ => 0, maxSize := 2 }

/-! ## Helper lemmas -/

/-- An element returned by `getLast?` is a member of the list. -/
theorem mem_of_getLast?_eq {T : Type} {l : List T} {a : T}
    (h : l.getLast? = some a) : a ∈ l := by
  obtain ⟨hne, heq⟩ := List.mem_getLast?_eq_getLast (l := l) (x := a) h
  exact heq ▸ List.getLast_mem hne

/-- One-dimensional clamping to `[lo, hi]` with `lo ≤ hi` is idempotent. -/
theorem clamp1_idem (lo hi x : ℚ) (h : lo ≤ hi) :
    max lo (min hi (max lo (min hi x))) = max lo (min hi x) := by
  have h1 : lo ≤ max lo (min hi x) := le_max_left _ _
  have h2 : max lo (min hi x) ≤ hi := max_le h (min_le_left _ _)
  rw [min_eq_right h2, max_eq_right h1]

/-! ## Claim theorems -/

/-- C5: for every point p and every margin configuration of the coordinate
system, `dataToScreen(screenToData(p))` equals p exactly — the two
transforms are pure margin-only translations that are exact inverses of
each other, with no clamping. -/
theorem dataToScreen_screenToData_exact_inverse (cs : CoordinateSystem)
    (p : Point) :
    cs.dataToScreen (cs.screenToData p) = p ∧
      cs.screenToData (cs.dataToScreen p) = p := by
  cases p
  constructor <;>
    · simp only [CoordinateSystem.dataToScreen, CoordinateSystem.screenToData,
        Point.mk.injEq]
      constructor <;> ring

/-- C8: for every point p and every width/height/margin configuration,
`clampToPlotArea` is idempotent. -/
theorem clampToPlotArea_idempotent (cs : CoordinateSystem) (p : Point) :
    cs.clampToPlotArea (cs.clampToPlotArea p) = cs.clampToPlotArea p := by
  have hw : cs.getPlotBounds.x ≤ cs.getPlotBounds.x + cs.getPlotBounds.width := by
    have : (0 : ℚ) ≤ cs.getPlotBounds.width := le_max_left 0 _
    linarith
  have hh : cs.getPlotBounds.y ≤ cs.getPlotBounds.y + cs.getPlotBounds.height := by
    have : (0 : ℚ) ≤ cs.getPlotBounds.height := le_max_left 0 _
    linarith
  simp only [CoordinateSystem.clampToPlotArea, Point.mk.injEq]
  exact ⟨clamp1_idem _ _ _ hw, clamp1_idem _ _ _ hh⟩

/-- C10: `resize(width, height)` changes only the width and height fields
and leaves the margin unchanged; `setMargin(partial)` changes only the
margin — merging the supplied partial insets over the existing ones, so
unsupplied insets keep their previous values — and leaves width and height
unchanged. -/
theorem resize_setMargin_frame (cs : CoordinateSystem) (w h : ℚ)
    (pm : PartialMargin) :
    ((cs.resize w h).width = w ∧ (cs.resize w h).height = h ∧
        (cs.resize w h).margin = cs.margin) ∧
      ((cs.setMargin pm).width = cs.width ∧
        (cs.setMargin pm).height = cs.height) ∧
      (cs.setMargin pm).margin =
        { top := pm.top.getD cs.margin.top
          right := pm.right.getD cs.margin.right
          bottom := pm.bottom.getD cs.margin.bottom
          left := pm.left.getD cs.margin.left } := by
  refine ⟨⟨rfl, rfl, rfl⟩, ⟨rfl, rfl⟩, rfl⟩

/-- C2: for every continuous scale constructed by `createScale` whose
domain has min equal to max (a zero-width domain), applying the scale to
any input returns the midpoint of the range, with no division by zero. -/
theorem createLinearScale_zero_width_midpoint (domain range : ℚ × ℚ)
    (hdeg : domain.1 = domain.2) (x : ℚ) :
    (createLinearScale domain range).apply x = (range.1 + range.2) / 2 := by
  simp only [createLinearScale, LinearScale.apply, normalizePos, hdeg,
    sub_self, ne_eq, not_true_eq_false, if_false]
  ring

/-- Witness for C2: the scale with domain [3,3] and range [10,20] sends 7
to the midpoint 15. -/
theorem createLinearScale_zero_width_midpoint_witness :
    (createLinearScale (3, 3) (10, 20)).apply 7 = 15 := by
  have h := createLinearScale_zero_width_midpoint (3, 3) (10, 20) rfl 7
  rw [h]
  norm_num

/-- C7: a touch event with zero touch points is dropped silently — no
NormalizedEvent is dispatched to any listener — and for a multi-touch
event with at least one touch point, the dispatched point is computed from
the first touch point only (the rest of the touch list is irrelevant). -/
theorem handleEvent_touch_policy {H : Type} (rect : Rect) (handlers : List H)
    (type : EventType) :
    handleEvent rect handlers type (.touch []) = [] ∧
      ∀ t rest, handleEvent rect handlers type (.touch (t :: rest)) =
        handlers.map (fun h =>
          (h, { type := type
                point := { x := t.1 - rect.x, y := t.2 - rect.y } })) := by
  constructor
  · simp [handleEvent, getEventPoint]
  · intro t rest
    simp [handleEvent, getEventPoint]

/-- C6: for a pool whose pooled entries are all in the canonical state,
whose factory constructs the canonical object and whose reset produces it,
`release(obj)` followed by `acquire()` returns the canonical object (for a
pooled Point, x=0 and y=0); an acquire on an empty pool returns the
freshly constructed factory object; and an acquire on a non-empty pool
returns a stored entry unchanged (reset happens on release, never on
acquire). -/
theorem pool_release_acquire_canonical {T : Type} (p : ObjectPool T)
    (obj canonical : T)
    (hpool : ∀ x ∈ p.pool, x = canonical)
    (hfac : p.factory () = canonical)
    (hres : ∀ x, p.reset x = canonical) :
    ((p.release obj).1.acquire).1 = canonical ∧
      (p.pool = [] → (p.acquire).1 = p.factory ()) ∧
      (p.pool ≠ [] → (p.acquire).1 ∈ p.pool ∧
        (p.acquire).2.pool = p.pool.dropLast) := by
  refine ⟨?_, ?_, ?_⟩
  · unfold ObjectPool.release
    by_cases hlen : p.pool.length < p.maxSize
    · simp only [hlen, if_true, ObjectPool.acquire]
      rw [List.getLast?_concat]
      exact hres obj
    · simp only [hlen, if_false, ObjectPool.acquire]
      cases hlast : p.pool.getLast? with
      | none => exact hfac
      | some a =>
        exact hpool a (mem_of_getLast?_eq hlast)
  · intro hnil
    simp [ObjectPool.acquire, hnil]
  · intro hne
    cases hlast : p.pool.getLast? with
    | none =>
      exact absurd (List.getLast?_eq_none_iff.mp hlast) hne
    | some a =>
      simp only [ObjectPool.acquire, hlast]
      exact ⟨mem_of_getLast?_eq hlast, trivial⟩

/-- Witness for C6: the PointPool holding one canonical entry, releasing
the point (5,7) and acquiring, returns the zero point; the empty PointPool
acquires the factory object; a non-empty pool yields a stored entry. -/
theorem pool_release_acquire_canonical_witness :
    ((pointPoolOne.release { x := 5, y := 7 }).1.acquire).1 =
        ({ x := 0, y := 0 } : Point) ∧
      (PointPool.pool = [] → (PointPool.acquire).1 = PointPool.factory ()) ∧
      (pointPoolOne.pool ≠ [] →
        (pointPoolOne.acquire).1 ∈ pointPoolOne.pool ∧
          (pointPoolOne.acquire).2.pool = pointPoolOne.pool.dropLast) := by
  refine ⟨?_, ?_, ?_⟩
  · exact (pool_release_acquire_canonical pointPoolOne
      { x := 5, y := 7 } { x := 0, y := 0 }
      (by intro x hx; simpa [pointPoolOne, PointPool] using hx)
      rfl (fun _ => rfl)).1
  · exact (pool_release_acquire_canonical PointPool { x := 5, y := 7 }
      { x := 0, y := 0 } (by intro x hx; simp [PointPool] at hx)
      rfl (fun _ => rfl)).2.1
  · exact (pool_release_acquire_canonical pointPoolOne
      { x := 5, y := 7 } { x := 0, y := 0 }
      (by intro x hx; simpa [pointPoolOne, PointPool] using hx)
      rfl (fun _ => rfl)).2.2

/-- One pool operation preserves the size bound and the capacity. -/
theorem pool_step_size {T : Type} (p : ObjectPool T) (op : PoolOp T)
    (hsize : p.size ≤ p.maxSize) :
    (p.step op).size ≤ (p.step op).maxSize ∧ (p.step op).maxSize = p.maxSize := by
  cases op with
  | acquireOp =>
    simp only [ObjectPool.step, ObjectPool.acquire]
    cases hlast : p.pool.getLast? with
    | none => exact ⟨hsize, rfl⟩
    | some a =>
      refine ⟨?_, rfl⟩
      simp only [ObjectPool.size, List.length_dropLast] at hsize ⊢
      omega
  | releaseOp obj =>
    simp only [ObjectPool.step, ObjectPool.release]
    by_cases hlen : p.pool.length < p.maxSize
    · simp only [hlen, if_true]
      refine ⟨?_, trivial⟩
      simp only [ObjectPool.size, List.length_append, List.length_cons,
        List.length_nil]
      omega
    · simp only [hlen, if_false]
      exact ⟨hsize, trivial⟩
  | clearOp =>
    refine ⟨?_, rfl⟩
    simp [ObjectPool.step, ObjectPool.clearPool, ObjectPool.size]

/-- C9: for a pool whose size is within its capacity, running any sequence
of acquire/release/clear operations keeps `size()` within `maxSize`
(which the operations never change); and a release performed while the
pool already holds `maxSize` objects leaves the pool unchanged and returns
the released object neither reset nor retained. -/
theorem pool_size_bounded {T : Type} (p : ObjectPool T)
    (ops : List (PoolOp T)) (obj : T) (hsize : p.size ≤ p.maxSize) :
    ((p.run ops).size ≤ (p.run ops).maxSize ∧
        (p.run ops).maxSize = p.maxSize) ∧
      (p.size = p.maxSize → p.release obj = (p, obj)) := by
  constructor
  · induction ops generalizing p with
    | nil => exact ⟨hsize, rfl⟩
    | cons op rest ih =>
      have hstep := pool_step_size p op hsize
      have hrest := ih (p.step op) (hstep.2 ▸ hstep.1)
      refine ⟨hrest.1, hrest.2.trans hstep.2⟩
  · intro hfull
    have : ¬ p.pool.length < p.maxSize := by
      simp only [ObjectPool.size] at hfull
      omega
    simp [ObjectPool.release, this]

/-- Witness for C9: a capacity-2 pool of naturals holding two entries,
run through a release (dropped), an acquire, a release, a clear and a
release, stays within capacity; releasing into the full pool is a no-op. -/
theorem pool_size_bounded_witness :
    ((natPool2.run
          [.releaseOp 9, .acquireOp, .releaseOp 9, .clearOp, .releaseOp 3]).size ≤
        (natPool2.run
          [.releaseOp 9, .acquireOp, .releaseOp 9, .clearOp, .releaseOp 3]).maxSize ∧
        (natPool2.run
          [.releaseOp 9, .acquireOp, .releaseOp 9, .clearOp, .releaseOp 3]).maxSize =
          natPool2.maxSize) ∧
      (natPool2.size = natPool2.maxSize →
        natPool2.release 7 = (natPool2, 7)) :=
  pool_size_bounded natPool2
    [.releaseOp 9, .acquireOp, .releaseOp 9, .clearOp, .releaseOp 3] 7
    (by simp [natPool2, ObjectPool.size])

/-- One `scheduleRender` call from a coherent state leaves exactly one
pending registration — the new callback — with the renderer tracking its
id, and the pair coherent again. -/
theorem scheduleRender_shape {α : Type} (r : CanvasRenderer) (q : FrameQueue α)
    (cb : α) (h : r.coherent q) :
    (r.scheduleRender q cb).2.pending = [(q.nextId, cb)] ∧
      (r.scheduleRender q cb).1.animationFrameId = some q.nextId ∧
      (r.scheduleRender q cb).1.coherent (r.scheduleRender q cb).2 := by
  have hpend : (r.scheduleRender q cb).2.pending = [(q.nextId, cb)] := by
    cases h with
    | inl h0 =>
      simp [CanvasRenderer.scheduleRender, FrameQueue.request, h0.1, h0.2]
    | inr h1 =>
      obtain ⟨i, c, hid, hp⟩ := h1
      simp [CanvasRenderer.scheduleRender, FrameQueue.request,
        FrameQueue.cancel, hid, hp]
  have hid : (r.scheduleRender q cb).1.animationFrameId = some q.nextId := by
    cases h with
    | inl h0 =>
      simp [CanvasRenderer.scheduleRender, FrameQueue.request, h0.1]
    | inr h1 =>
      obtain ⟨i, c, hid, hp⟩ := h1
      simp [CanvasRenderer.scheduleRender, FrameQueue.request,
        FrameQueue.cancel, hid]
  exact ⟨hpend, hid, Or.inr ⟨q.nextId, cb, hid, hpend⟩⟩

/-- C3: for every non-empty sequence of callbacks supplied by
`scheduleRender` calls within one frame interval, when the animation frame
fires, exactly one callback executes, and it is the most recently supplied
one; every earlier-supplied callback from the same interval never runs. -/
theorem scheduleRender_coalesces_to_last {α : Type} (r : CanvasRenderer)
    (q : FrameQueue α) (cbs : List α) (hne : cbs ≠ [])
    (hcoh : r.coherent q) :
    (CanvasRenderer.scheduleMany (r, q) cbs).2.fire = [cbs.getLast hne] := by
  induction cbs generalizing r q with
  | nil => exact absurd rfl hne
  | cons cb rest ih =>
    by_cases hrest : rest = []
    · subst hrest
      have hsh := scheduleRender_shape r q cb hcoh
      simp [CanvasRenderer.scheduleMany, FrameQueue.fire, hsh.1]
    · have hsh := scheduleRender_shape r q cb hcoh
      have hstep : CanvasRenderer.scheduleMany (r, q) (cb :: rest) =
          CanvasRenderer.scheduleMany (r.scheduleRender q cb) rest := by
        simp [CanvasRenderer.scheduleMany]
      rw [hstep, List.getLast_cons hrest]
      exact ih (r.scheduleRender q cb).1 (r.scheduleRender q cb).2
        hrest hsh.2.2

/-- Witness for C3: three synchronous `scheduleRender` calls from a fresh
renderer yield exactly one execution, of the third callback. -/
theorem scheduleRender_coalesces_to_last_witness :
    (CanvasRenderer.scheduleMany
        (({ animationFrameId := none } : CanvasRenderer),
          ({ pending := [], nextId := 0 } : FrameQueue ℕ))
        [10, 20, 30]).2.fire = [30] := by
  have h := scheduleRender_coalesces_to_last
    ({ animationFrameId := none } : CanvasRenderer)
    ({ pending := [], nextId := 0 } : FrameQueue ℕ)
    [10, 20, 30] (by simp) (Or.inl ⟨rfl, rfl⟩)
  simpa using h

/-- A running minimum is bounded by its initial value. -/
theorem foldl_min_le_init (vs : List ℚ) (v : ℚ) : vs.foldl min v ≤ v := by
  induction vs generalizing v with
  | nil => exact le_refl v
  | cons a as ih => exact le_trans (ih (min v a)) (min_le_left v a)

/-- A running minimum is bounded by every element folded over. -/
theorem foldl_min_le_mem {x : ℚ} (vs : List ℚ) (v : ℚ) (hx : x ∈ vs) :
    vs.foldl min v ≤ x := by
  induction vs generalizing v with
  | nil => cases hx
  | cons a as ih =>
    rcases List.mem_cons.mp hx with rfl | hx2
    · exact le_trans (foldl_min_le_init as (min v x)) (min_le_right v x)
    · exact ih (min v a) hx2

/-- A running minimum is the initial value or one of the elements. -/
theorem foldl_min_mem (vs : List ℚ) (v : ℚ) :
    vs.foldl min v = v ∨ vs.foldl min v ∈ vs := by
  induction vs generalizing v with
  | nil => exact Or.inl rfl
  | cons a as ih =>
    rcases ih (min v a) with h | h
    · rcases min_choice v a with hm | hm
      · exact Or.inl (by rw [List.foldl_cons, h, hm])
      · exact Or.inr (by rw [List.foldl_cons, h, hm]; exact List.mem_cons_self a as)
    · exact Or.inr (List.mem_cons_of_mem a h)

/-- A running maximum is bounded below by its initial value. -/
theorem le_foldl_max_init (vs : List ℚ) (v : ℚ) : v ≤ vs.foldl max v := by
  induction vs generalizing v with
  | nil => exact le_refl v
  | cons a as ih => exact le_trans (le_max_left v a) (ih (max v a))

/-- A running maximum bounds every element folded over. -/
theorem le_foldl_max_mem {x : ℚ} (vs : List ℚ) (v : ℚ) (hx : x ∈ vs) :
    x ≤ vs.foldl max v := by
  induction vs generalizing v with
  | nil => cases hx
  | cons a as ih =>
    rcases List.mem_cons.mp hx with rfl | hx2
    · exact le_trans (le_max_right v x) (le_foldl_max_init as (max v x))
    · exact ih (max v a) hx2

/-- A running maximum is the initial value or one of the elements. -/
theorem foldl_max_mem (vs : List ℚ) (v : ℚ) :
    vs.foldl max v = v ∨ vs.foldl max v ∈ vs := by
  induction vs generalizing v with
  | nil => exact Or.inl rfl
  | cons a as ih =>
    rcases ih (max v a) with h | h
    · rcases max_choice v a with hm | hm
      · exact Or.inl (by rw [List.foldl_cons, h, hm])
      · exact Or.inr (by rw [List.foldl_cons, h, hm]; exact List.mem_cons_self a as)
    · exact Or.inr (List.mem_cons_of_mem a h)

/-- First-seen deduplication preserves membership. -/
theorem mem_dedupFirstSeen {V : Type} [DecidableEq V] (l : List V) (w : V) :
    w ∈ dedupFirstSeen l ↔ w ∈ l := by
  induction l with
  | nil => simp [dedupFirstSeen]
  | cons v vs ih =>
    simp only [dedupFirstSeen, List.mem_cons, List.mem_filter,
      decide_eq_true_eq]
    constructor
    · rintro (rfl | ⟨hw, _⟩)
      · exact Or.inl rfl
      · exact Or.inr (ih.mp hw)
    · rintro (rfl | hw)
      · exact Or.inl rfl
      · by_cases hwv : w = v
        · exact Or.inl hwv
        · exact Or.inr ⟨ih.mpr hw, hwv⟩

/-- First-seen deduplication yields a duplicate-free list. -/
theorem nodup_dedupFirstSeen {V : Type} [DecidableEq V] (l : List V) :
    (dedupFirstSeen l).Nodup := by
  induction l with
  | nil => simp [dedupFirstSeen]
  | cons v vs ih =>
    refine List.Pairwise.cons ?_ (List.Nodup.filter _ ih)
    intro b hb
    have := (List.mem_filter.mp hb).2
    simp only [decide_eq_true_eq] at this
    exact fun hvb => this (hvb ▸ rfl)

/-- First-seen deduplication lists values in strictly increasing order of
their first occurrence. -/
theorem pairwise_indexOf_dedupFirstSeen {V : Type} [DecidableEq V]
    (l : List V) :
    (dedupFirstSeen l).Pairwise (fun a b => l.indexOf a < l.indexOf b) := by
  induction l with
  | nil => simp [dedupFirstSeen]
  | cons v vs ih =>
    rw [dedupFirstSeen, List.pairwise_cons]
    constructor
    · intro b hb
      have hbne : b ≠ v := by
        have := (List.mem_filter.mp hb).2
        simpa [decide_eq_true_eq] using this
      rw [List.indexOf_cons_self, List.indexOf_cons_ne vs (fun h => hbne h.symm)]
      exact Nat.succ_pos _
    · have hfil := List.Pairwise.filter (fun w => decide (w ≠ v)) ih
      refine List.Pairwise.imp_of_mem ?_ hfil
      intro a b ha hb hab
      have hane : a ≠ v := by
        have := (List.mem_filter.mp ha).2
        simpa [decide_eq_true_eq] using this
      have hbne : b ≠ v := by
        have := (List.mem_filter.mp hb).2
        simpa [decide_eq_true_eq] using this
      rw [List.indexOf_cons_ne vs (fun h => hane h.symm),
        List.indexOf_cons_ne vs (fun h => hbne h.symm)]
      exact Nat.succ_lt_succ hab

/-- C4: `computeDomain` over an empty dataset with a continuous variant
fails with the empty-domain error; over a non-empty dataset with a
continuous variant it returns the two-element extent `[min, max]` of the
accessor results; for categorical variants it returns (without failing,
also on an empty dataset) the distinct accessor results in first-seen
order: a duplicate-free list with the same members as the accessor
results, ordered by first occurrence. -/
theorem computeDomain_spec {α : Type} (data : List α)
    (accessor : α → ℕ → ℚ) (t : ScaleType) :
    (t.isCategorical = false → data = [] →
        computeDomain data accessor t = .error .emptyDomain) ∧
      (t.isCategorical = false → data ≠ [] →
        ∃ mn mx, computeDomain data accessor t = .ok [mn, mx] ∧
          mn ∈ accessorValues data accessor ∧
          mx ∈ accessorValues data accessor ∧
          ∀ w ∈ accessorValues data accessor, mn ≤ w ∧ w ≤ mx) ∧
      (t.isCategorical = true →
        ∃ r, computeDomain data accessor t = .ok r ∧ r.Nodup ∧
          (∀ w, w ∈ r ↔ w ∈ accessorValues data accessor) ∧
          r.Pairwise (fun a b =>
            (accessorValues data accessor).indexOf a <
              (accessorValues data accessor).indexOf b)) := by
  refine ⟨?_, ?_, ?_⟩
  · intro hcat hdata
    subst hdata
    simp [computeDomain, hcat, accessorValues, extent]
  · intro hcat hdata
    have hvals : accessorValues data accessor ≠ [] := by
      simp only [accessorValues, ne_eq, List.map_eq_nil_iff, List.enum_eq_nil]
      exact hdata
    cases hv : accessorValues data accessor with
    | nil => exact absurd hv hvals
    | cons v vs =>
      refine ⟨vs.foldl min v, vs.foldl max v, ?_, ?_, ?_, ?_⟩
      · simp [computeDomain, hcat, hv, extent]
      · rcases foldl_min_mem vs v with h | h
        · rw [h]; exact List.mem_cons_self v vs
        · exact List.mem_cons_of_mem v h
      · rcases foldl_max_mem vs v with h | h
        · rw [h]; exact List.mem_cons_self v vs
        · exact List.mem_cons_of_mem v h
      · intro w hw
        rcases List.mem_cons.mp hw with rfl | hw2
        · exact ⟨foldl_min_le_init vs w, le_foldl_max_init vs w⟩
        · exact ⟨foldl_min_le_mem vs v hw2, le_foldl_max_mem vs v hw2⟩
  · intro hcat
    refine ⟨dedupFirstSeen (accessorValues data accessor), ?_, ?_, ?_, ?_⟩
    · simp [computeDomain, hcat]
    · exact nodup_dedupFirstSeen _
    · exact fun w => mem_dedupFirstSeen _ w
    · exact pairwise_indexOf_dedupFirstSeen _

/-- Witness for C4: the empty dataset fails for the linear variant; the
dataset [3, 1, 2] with the identity accessor yields extent [1, 3] for the
linear variant and first-seen distinct values [2, 5] from [2, 5, 2] for
the band variant. -/
theorem computeDomain_spec_witness :
    computeDomain ([] : List ℚ) (fun d _ => d) .linear =
        .error .emptyDomain ∧
      computeDomain [(3 : ℚ), 1, 2] (fun d _ => d) .linear = .ok [1, 3] ∧
      computeDomain [(2 : ℚ), 5, 2] (fun d _ => d) .band = .ok [2, 5] :=
  ⟨(computeDomain_spec ([] : List ℚ) (fun d _ => d) .linear).1 rfl rfl,
    by norm_num [computeDomain, accessorValues, extent,
      ScaleType.isCategorical, min_def, max_def],
    by norm_num [computeDomain, accessorValues, dedupFirstSeen,
      ScaleType.isCategorical]⟩

/-- A concrete chart with no renderables (the orchestrator as constructed,
before any `add`). -/
def chartC1 : Chart :=
  { width := 100, height := 80, backgroundColor := "#ffffff", renderables := [] }

/-- Counterexample to C1: `render()` does clear layers itself — its very
first step is `clearAll()`, which clears every layer's surface; here the
grid layer's surface is cleared by `render()` on a chart with no
renderables, refuting "render() does not itself clear any layer's
surface". -/
theorem render_clearAll_counterexample :
    RenderEffect.clearLayer RenderLayer.grid ∈ chartC1.render := by
  simp [chartC1, Chart.render, layerOrder, Chart.getBucket]

/-- C1 (amended): `render()` first clears every layer's surface (via
`clearAll`), then repaints the background layer with the configured solid
fill over the full chart size, and then invokes each renderable's render
in fixed layer order, skipping exactly those renderables whose visible
flag is `false`. -/
theorem render_trace_amended (c : Chart) :
    (∀ l, RenderEffect.clearLayer l ∈ c.render) ∧
      RenderEffect.fillBackground c.backgroundColor 0 0 c.width c.height ∈
        c.render ∧
      (∀ l r, RenderEffect.draw l r ∈ c.render ↔
        ∃ bucket, c.getBucket l = some bucket ∧ r ∈ bucket ∧
          r.visible ≠ some false) ∧
      c.render = (layerOrder.map RenderEffect.clearLayer)
        ++ [RenderEffect.fillBackground c.backgroundColor 0 0 c.width c.height]
        ++ layerOrder.flatMap (fun l =>
            (((c.getBucket l).getD []).filter
              (fun r => r.visible ≠ some false)).map (RenderEffect.draw l)) := by
  have hbucket : ∀ l,
      (match c.getBucket l with
        | none => ([] : List RenderEffect)
        | some components =>
          (components.filter (fun r => r.visible ≠ some false)).map
            (RenderEffect.draw l)) =
      (((c.getBucket l).getD []).filter
        (fun r => r.visible ≠ some false)).map (RenderEffect.draw l) := by
    intro l
    cases c.getBucket l <;> simp
  have htrace : c.render = (layerOrder.map RenderEffect.clearLayer)
      ++ [RenderEffect.fillBackground c.backgroundColor 0 0 c.width c.height]
      ++ layerOrder.flatMap (fun l =>
          (((c.getBucket l).getD []).filter
            (fun r => r.visible ≠ some false)).map (RenderEffect.draw l)) := by
    simp only [Chart.render, hbucket]
  have hmeml : ∀ l : RenderLayer, l ∈ layerOrder := by
    intro l
    cases l <;> simp [layerOrder]
  refine ⟨?_, ?_, ?_, htrace⟩
  · intro l
    rw [htrace]
    exact List.mem_append.mpr (Or.inl (List.mem_append.mpr
      (Or.inl (List.mem_map.mpr ⟨l, hmeml l, rfl⟩))))
  · rw [htrace]
    exact List.mem_append.mpr (Or.inl (List.mem_append.mpr
      (Or.inr (List.mem_singleton.mpr rfl))))
  · intro l r
    rw [htrace]
    constructor
    · intro hmem
      rcases List.mem_append.mp hmem with hmem1 | hmem2
      · rcases List.mem_append.mp hmem1 with hclears | hfill
        · simp [List.mem_map] at hclears
        · simp at hfill
      · rcases List.mem_flatMap.mp hmem2 with ⟨l', _, hin⟩
        rcases List.mem_map.mp hin with ⟨r', hr', heq⟩
        rw [RenderEffect.draw.injEq] at heq
        obtain ⟨hl, hr⟩ := heq
        rw [hl] at hr'
        rw [hr] at hr'
        cases hb : c.getBucket l with
        | none => rw [hb] at hr'; simp at hr'
        | some bucket =>
          rw [hb] at hr'
          simp only [Option.getD_some, List.mem_filter,
            decide_eq_true_eq] at hr'
          exact ⟨bucket, rfl, hr'.1, hr'.2⟩
    · rintro ⟨bucket, hb, hrb, hvis⟩
      refine List.mem_append.mpr (Or.inr (List.mem_flatMap.mpr
        ⟨l, hmeml l, ?_⟩))
      rw [hb]
      exact List.mem_map.mpr ⟨r,
        List.mem_filter.mpr ⟨hrb, by simpa using hvis⟩, rfl⟩

end DataViz
